import Mathlib

/-!
Verification of the `EnumLike` utility of the `ts-utils` repository.

The repository contains two runtime implementations of `EnumLike`:
* `src/generic-utils/src/lib/type-utils/enum-like/enum-like.ts` (here `EnumLikeA`),
  which guards against falsy inputs and empty arrays, handles arrays and
  values of object type, and falls back to an empty object otherwise;
* `src/generic-utils/src/lib/enum-like.ts` (here `EnumLikeB`), which only
  distinguishes arrays from everything else and calls `Object.keys` on every
  non-array input (throwing a `TypeError` on `null`/`undefined`).

The embedding models JavaScript values (`JSVal`), property-key coercion
(`toPropKey`, the `ToPropertyKey`/`ToString` semantics for the modelled
values), and plain-object property insertion (`defineProp`/`fromEntries`),
including the ECMAScript ordinary-object property order: array-index keys
first in ascending numeric order, then string keys in insertion order.
-/

mutual
/-- A JavaScript value, as far as the `EnumLike` code can observe it.
Numbers are modelled as integers (the only numbers the spec exercises).
An object is its list of own enumerable string-keyed properties in
enumeration order; an array is its element list (`JSList`, a mutual copy
of `List` so that array stringification can recurse structurally). -/
inductive JSVal where
  | vnull
  | vundef
  | vbool (b : Bool)
  | vnum (n : Int)
  | vstr (s : String)
  | varr (elems : JSList)
  | vobj (props : List (String × JSVal))
/-- A list of JavaScript values (the element list of an array value). -/
inductive JSList where
  | lnil
  | lcons (head : JSVal) (tail : JSList)
end

/-- Repackage a `List` of values as an array element list. -/
def JSList.ofList : List JSVal → JSList
  | [] => .lnil
  | x :: xs => .lcons x (ofList xs)

/-- The `List` of elements of an array element list. -/
def JSList.toList : JSList → List JSVal
  | .lnil => []
  | .lcons x xs => x :: toList xs

/-- An array value with the given elements. -/
def jarr (l : List JSVal) : JSVal :=
  .varr (.ofList l)

/-- JavaScript `ToString` of a non-array value (arrays are handled by
`joinArr` below): `null`/`undefined`/booleans/numbers/strings stringify
in the usual way, a plain object stringifies as `"[object Object]"`. -/
def scalarKey : JSVal → String
  | .vnull => "null"
  | .vundef => "undefined"
  | .vbool true => "true"
  | .vbool false => "false"
  | .vnum n => toString n
  | .vstr s => s
  | .vobj _ => "[object Object]"
  | .varr _ => ""

mutual
/-- How one array element contributes to `Array.prototype.join`: `null`
and `undefined` contribute the empty string, nested arrays join
recursively, everything else stringifies as usual. -/
def elemKey : JSVal → String
  | .vnull => ""
  | .vundef => ""
  | .varr l => joinArr l
  | v => scalarKey v
termination_by structural v => v
/-- Model of `Array.prototype.join` with separator `","`, as used by
array `ToString`. -/
def joinArr : JSList → String
  | .lnil => ""
  | .lcons x xs =>
    elemKey x ++ (match xs with
                  | .lnil => ""
                  | .lcons _ _ => "," ++ joinArr xs)
termination_by structural l => l
end

/-- JavaScript `ToString` on a value used as a property key
(`Object.fromEntries` coerces each entry key with `ToPropertyKey`).
Arrays stringify by joining their elements with commas. -/
def toPropKey : JSVal → String
  | .varr l => joinArr l
  | v => scalarKey v

/-- The numeric value of a decimal digit string (used to reconstruct the
number a candidate array-index key denotes). -/
def charsToNat (cs : List Char) : Nat :=
  cs.foldl (fun acc c => acc * 10 + (c.toNat - 48)) 0

/-- Returns `some n` when `s` is the canonical decimal string of an
ECMAScript array index (`0 ≤ n < 2^32 - 1`): the digits of `s` read back
as a number whose canonical decimal form is `s` itself. Such keys are
the ones ordinary objects enumerate first, in ascending numeric order. -/
def canonIndex? (s : String) : Option Nat :=
  let n := charsToNat s.toList
  if toString n = s ∧ n < 4294967295 then some n else none

/-- Enumeration-order constraint between two distinct property keys of an
ordinary object: an array-index key never follows a non-index key, and
array-index keys are ascending. -/
def keyBefore (a b : String) : Bool :=
  match canonIndex? a, canonIndex? b with
  | some n, some m => n < m
  | none, some _ => false
  | _, _ => true

/-- Define (create or overwrite) property `k` with value `v` on the
property list `es` of an ordinary object, maintaining ECMAScript property
order: overwriting keeps the position of the property; a fresh array-index key
is inserted at its sorted place in the index block; a fresh ordinary key
is appended. -/
def defineProp : List (String × JSVal) → String → JSVal → List (String × JSVal)
  | [], k, v => [(k, v)]
  | (k', v') :: rest, k, v =>
    if k = k' then (k', v) :: rest
    else
      match canonIndex? k, canonIndex? k' with
      | some n, some n' =>
        if n < n' then (k, v) :: (k', v') :: rest
        else (k', v') :: defineProp rest k v
      | some _, none => (k, v) :: (k', v') :: rest
      | _, _ => (k', v') :: defineProp rest k v

/-- Model of `Object.fromEntries`: build a fresh ordinary object by
defining each entry in turn (later entries overwrite earlier ones). -/
def fromEntries (l : List (String × JSVal)) : List (String × JSVal) :=
  l.foldl (fun acc kv => defineProp acc kv.1 kv.2) []

/-- Property read `o[k]` on the property list of an object. -/
def lookup : List (String × JSVal) → String → Option JSVal
  | [], _ => none
  | (k', v') :: rest, k => if k' = k then some v' else lookup rest k

/-- The key list of the property list of an object, in enumeration
order (what `Object.keys` returns for an object). -/
def objKeys (es : List (String × JSVal)) : List String :=
  es.map Prod.fst

/-- JavaScript truthiness of a modelled value (the `!param` guard). -/
def jsTruthy : JSVal → Bool
  | .vnull => false
  | .vundef => false
  | .vbool b => b
  | .vnum n => n != 0
  | .vstr s => s != ""
  | .varr _ => true
  | .vobj _ => true

/-- Model of `Array.isArray`. -/
def isArr : JSVal → Bool
  | .varr _ => true
  | _ => false

/-- The elements of an array value (`[]` on non-arrays; only applied
under an `isArr` guard, mirroring the source). -/
def arrElems : JSVal → List JSVal
  | .varr l => l.toList
  | _ => []

/-- The value of `param.length` for an array value. -/
def arrLength (v : JSVal) : Nat :=
  (arrElems v).length

/-- Whether `typeof param` is `"object"` (true for objects, arrays and
`null`). -/
def typeofIsObject : JSVal → Bool
  | .vnull => true
  | .varr _ => true
  | .vobj _ => true
  | _ => false

/-- Model of `Object.keys` on an arbitrary value: throws a `TypeError`
on `null` and `undefined`; boxes other primitives (numbers and booleans
have no own enumerable keys, a string has its character indices);
returns the keys of an object in enumeration order. -/
def jsObjectKeys : JSVal → Except String (List String)
  | .vnull => .error "TypeError"
  | .vundef => .error "TypeError"
  | .vbool _ => .ok []
  | .vnum _ => .ok []
  | .vstr s => .ok ((List.range s.length).map (fun i => toString i))
  | .varr l => .ok ((List.range l.toList.length).map (fun i => toString i))
  | .vobj es => .ok (objKeys es)

/-- The call `Object.keys(param)` as made in the object branch of the
type-utils implementation (the branch is only reached for proper
objects, for which `Object.keys` cannot throw). -/
def ownKeys : JSVal → List String
  | .vobj es => objKeys es
  | _ => []

/-- The implementation in
`src/generic-utils/src/lib/type-utils/enum-like/enum-like.ts`:
falsy or empty-array input returns `{}`; an array maps each element to
itself keyed by its coerced property key; a (non-null, by the first
guard) value of object type maps each of its own keys to itself;
anything else returns `{}`. -/
def EnumLikeA (param : JSVal) : List (String × JSVal) :=
  if !jsTruthy param || (isArr param && arrLength param == 0) then
    []
  else if isArr param then
    fromEntries ((arrElems param).map (fun key => (toPropKey key, key)))
  else if typeofIsObject param then
    fromEntries ((ownKeys param).map (fun key => (key, JSVal.vstr key)))
  else
    []

/-- The implementation in `src/generic-utils/src/lib/enum-like.ts`:
an array maps each element to itself keyed by its coerced property key;
every other value goes through `Object.keys` (which can throw). -/
def EnumLikeB (param : JSVal) : Except String (List (String × JSVal)) :=
  if isArr param then
    .ok (fromEntries ((arrElems param).map (fun key => (toPropKey key, key))))
  else
    match jsObjectKeys param with
    | .error e => .error e
    | .ok ks => .ok (fromEntries (ks.map (fun key => (key, JSVal.vstr key))))

/-- A JavaScript call binds a single declared parameter to the first
actual argument (or `undefined` when none is supplied); surplus
arguments are not bound. Call of the type-utils implementation. -/
def EnumLikeACall (args : List JSVal) : List (String × JSVal) :=
  EnumLikeA (args.getD 0 JSVal.vundef)

/-- Call of the `lib/enum-like.ts` implementation with an argument list. -/
def EnumLikeBCall (args : List JSVal) : Except String (List (String × JSVal)) :=
  EnumLikeB (args.getD 0 JSVal.vundef)

/-- The value paired with the last occurrence of key `k` in an entry
list (the value that last-write-wins folding keeps for `k`). -/
def lastVal : List (String × JSVal) → String → Option JSVal
  | [], _ => none
  | kv :: rest, k =>
    match lastVal rest k with
    | some v => some v
    | none => if kv.1 = k then some kv.2 else none

/-- The invariant every property list reachable by ordinary-object
property definition satisfies: keys are pairwise in enumeration order
(`keyBefore`) and duplicate-free. -/
def GoodObj (es : List (String × JSVal)) : Prop :=
  (objKeys es).Pairwise (fun a b => keyBefore a b = true) ∧ (objKeys es).Nodup

/-- A heap of allocated JavaScript objects, for stating that `EnumLike`
does not mutate its input and returns a fresh allocation: a bump
allocator over a list of address/value cells. -/
structure Store where
  nextAddr : Nat
  mem : List (Nat × JSVal)

/-- Read the value stored at address `a`. -/
def Store.lookupAddr (s : Store) (a : Nat) : Option JSVal :=
  (s.mem.find? (fun p => p.1 == a)).map Prod.snd

/-- A store is well formed when every allocated address is below the
bump pointer. -/
def Store.Bounded (s : Store) : Prop :=
  ∀ p ∈ s.mem, p.1 < s.nextAddr

/-- Run the type-utils `EnumLike` against the heap: read the input value
at address `a`, leave it untouched, and allocate the result object at a
fresh address (the source reads `param` and builds the result with
`Object.fromEntries`, never writing to `param`). -/
def enumLikeAlloc (s : Store) (a : Nat) : Option (Store × Nat) :=
  match s.lookupAddr a with
  | none => none
  | some v =>
    some ({ nextAddr := s.nextAddr + 1,
            mem := (s.nextAddr, JSVal.vobj (EnumLikeA v)) :: s.mem },
          s.nextAddr)

/-- Reading back the key just defined yields the value just written. -/
theorem lookup_defineProp_self (es : List (String × JSVal)) (k : String) (v : JSVal) :
    lookup (defineProp es k v) k = some v := by
  induction es with
  | nil => simp [defineProp, lookup]
  | cons kv rest ih =>
    obtain ⟨k', v'⟩ := kv
    by_cases hk : k = k'
    · subst hk
      simp [defineProp, lookup]
    · rcases hck : canonIndex? k with _ | n <;> rcases hck' : canonIndex? k' with _ | n'
      · simp [defineProp, hk, hck, hck', lookup, Ne.symm hk, ih]
      · simp [defineProp, hk, hck, hck', lookup, Ne.symm hk, ih]
      · simp [defineProp, hk, hck, hck', lookup, ih]
      · by_cases hlt : n < n'
        · simp [defineProp, hk, hck, hck', hlt, lookup]
        · simp [defineProp, hk, hck, hck', hlt, lookup, Ne.symm hk, ih]

/-- Defining one key leaves reads of every other key unchanged. -/
theorem lookup_defineProp_ne (es : List (String × JSVal)) (k k' : String) (v : JSVal)
    (h : k' ≠ k) : lookup (defineProp es k v) k' = lookup es k' := by
  induction es with
  | nil => simp [defineProp, lookup, Ne.symm h]
  | cons kv rest ih =>
    obtain ⟨k1, v1⟩ := kv
    by_cases hk : k = k1
    · subst hk
      simp [defineProp, lookup, Ne.symm h]
    · rcases hck : canonIndex? k with _ | n <;> rcases hck' : canonIndex? k1 with _ | n1
      · simp only [defineProp, if_neg hk, hck, hck', lookup]
        split <;> simp [ih]
      · simp only [defineProp, if_neg hk, hck, hck', lookup]
        split <;> simp [ih]
      · simp [defineProp, hk, hck, hck', lookup, Ne.symm h]
      · by_cases hlt : n < n1
        · simp [defineProp, hk, hck, hck', hlt, lookup, Ne.symm h]
        · simp only [defineProp, if_neg hk, hck, hck', if_neg hlt, lookup]
          split <;> simp [ih]

/-- The keys after a property definition are the old keys plus the
defined key. -/
theorem mem_objKeys_defineProp (es : List (String × JSVal)) (k a : String) (v : JSVal) :
    a ∈ objKeys (defineProp es k v) ↔ a ∈ objKeys es ∨ a = k := by
  induction es with
  | nil => simp [defineProp, objKeys]
  | cons kv rest ih =>
    obtain ⟨k1, v1⟩ := kv
    by_cases hk : k = k1
    · subst hk
      have hd : defineProp ((k, v1) :: rest) k v = (k, v) :: rest := by
        simp [defineProp]
      rw [hd]
      simp only [objKeys, List.map_cons, List.mem_cons]
      tauto
    · rcases hck : canonIndex? k with _ | n <;> rcases hck' : canonIndex? k1 with _ | n1
      · simp only [defineProp, if_neg hk, hck, hck', objKeys, List.map_cons, List.mem_cons] at ih ⊢
        rw [ih]
        tauto
      · simp only [defineProp, if_neg hk, hck, hck', objKeys, List.map_cons, List.mem_cons] at ih ⊢
        rw [ih]
        tauto
      · simp only [defineProp, if_neg hk, hck, hck', objKeys, List.map_cons, List.mem_cons]
        tauto
      · by_cases hlt : n < n1
        · simp only [defineProp, if_neg hk, hck, hck', if_pos hlt, objKeys, List.map_cons,
            List.mem_cons]
          tauto
        · simp only [defineProp, if_neg hk, hck, hck', if_neg hlt, objKeys, List.map_cons,
            List.mem_cons] at ih ⊢
          rw [ih]
          tauto

/-- Defining a fresh key inserts it: the new key list is a permutation
of the old one with the new key in front. -/
theorem objKeys_defineProp_perm (es : List (String × JSVal)) (k : String) (v : JSVal)
    (h : k ∉ objKeys es) :
    List.Perm (objKeys (defineProp es k v)) (k :: objKeys es) := by
  induction es with
  | nil => simp [defineProp, objKeys]
  | cons kv rest ih =>
    obtain ⟨k1, v1⟩ := kv
    simp only [objKeys, List.map_cons, List.mem_cons, not_or] at h
    obtain ⟨hk, hrest⟩ := h
    rcases hck : canonIndex? k with _ | n <;> rcases hck' : canonIndex? k1 with _ | n1
    · simp only [defineProp, if_neg hk, hck, hck', objKeys, List.map_cons]
      exact ((ih hrest).cons k1).trans (List.Perm.swap k k1 _)
    · simp only [defineProp, if_neg hk, hck, hck', objKeys, List.map_cons]
      exact ((ih hrest).cons k1).trans (List.Perm.swap k k1 _)
    · simp [defineProp, hk, hck, hck', objKeys]
    · by_cases hlt : n < n1
      · simp [defineProp, hk, hck, hck', hlt, objKeys]
      · simp only [defineProp, if_neg hk, hck, hck', if_neg hlt, objKeys, List.map_cons]
        exact ((ih hrest).cons k1).trans (List.Perm.swap k k1 _)

/-- Every entry of a property list after a definition was already there
or is the defined entry. -/
theorem mem_defineProp (es : List (String × JSVal)) (k : String) (v : JSVal)
    (p : String × JSVal) (h : p ∈ defineProp es k v) : p ∈ es ∨ p = (k, v) := by
  induction es with
  | nil =>
    simp only [defineProp, List.mem_singleton] at h
    exact Or.inr h
  | cons kv rest ih =>
    obtain ⟨k1, v1⟩ := kv
    by_cases hk : k = k1
    · subst hk
      have hd : defineProp ((k, v1) :: rest) k v = (k, v) :: rest := by
        simp [defineProp]
      rw [hd, List.mem_cons] at h
      rcases h with h | h
      · exact Or.inr h
      · exact Or.inl (List.mem_cons_of_mem _ h)
    · rcases hck : canonIndex? k with _ | n
      · have hd : defineProp ((k1, v1) :: rest) k v = (k1, v1) :: defineProp rest k v := by
          rcases hck' : canonIndex? k1 with _ | n1 <;> simp [defineProp, hk, hck, hck']
        rw [hd, List.mem_cons] at h
        rcases h with h | h
        · exact Or.inl (by simp [h])
        · rcases ih h with h' | h'
          · exact Or.inl (List.mem_cons_of_mem _ h')
          · exact Or.inr h'
      · rcases hck' : canonIndex? k1 with _ | n1
        · have hd : defineProp ((k1, v1) :: rest) k v = (k, v) :: (k1, v1) :: rest := by
            simp [defineProp, hk, hck, hck']
          rw [hd] at h
          simp only [List.mem_cons] at h
          rcases h with h | h | h
          · exact Or.inr h
          · exact Or.inl (by simp [h])
          · exact Or.inl (List.mem_cons_of_mem _ h)
        · by_cases hlt : n < n1
          · have hd : defineProp ((k1, v1) :: rest) k v = (k, v) :: (k1, v1) :: rest := by
              simp [defineProp, hk, hck, hck', hlt]
            rw [hd] at h
            simp only [List.mem_cons] at h
            rcases h with h | h | h
            · exact Or.inr h
            · exact Or.inl (by simp [h])
            · exact Or.inl (List.mem_cons_of_mem _ h)
          · have hd : defineProp ((k1, v1) :: rest) k v = (k1, v1) :: defineProp rest k v := by
              simp [defineProp, hk, hck, hck', hlt]
            rw [hd, List.mem_cons] at h
            rcases h with h | h
            · exact Or.inl (by simp [h])
            · rcases ih h with h' | h'
              · exact Or.inl (List.mem_cons_of_mem _ h')
              · exact Or.inr h'

/-- Keys that are not array indices sort after every key. -/
theorem keyBefore_nonindex (a b : String) (h : canonIndex? b = none) :
    keyBefore a b = true := by
  unfold keyBefore
  rcases hca : canonIndex? a with _ | n <;> simp [h, hca]

/-- Unfolding `keyBefore` when both keys are array indices. -/
theorem keyBefore_some_some (a b : String) (n m : Nat) (ha : canonIndex? a = some n)
    (hb : canonIndex? b = some m) : keyBefore a b = true ↔ n < m := by
  unfold keyBefore
  rw [ha, hb]
  simp

/-- Unfolding `keyBefore` when only the left key is an array index. -/
theorem keyBefore_some_none (a b : String) (n : Nat) (ha : canonIndex? a = some n)
    (hb : canonIndex? b = none) : keyBefore a b = true := by
  unfold keyBefore
  rw [ha, hb]

/-- Unfolding `keyBefore` when only the right key is an array index. -/
theorem keyBefore_none_some (a b : String) (m : Nat) (ha : canonIndex? a = none)
    (hb : canonIndex? b = some m) : keyBefore a b = false := by
  unfold keyBefore
  rw [ha, hb]

/-- A recognized array-index key is the canonical decimal string of its
number. -/
theorem canonIndex_eq_some (s : String) (n : Nat) (h : canonIndex? s = some n) :
    toString n = s ∧ n < 4294967295 := by
  simp only [canonIndex?] at h
  split at h
  · rename_i hcond
    obtain rfl := Option.some.inj h
    exact hcond
  · exact absurd h (by simp)

/-- Two keys recognized as the same array index are equal. -/
theorem canonIndex_inj (a b : String) (n : Nat) (ha : canonIndex? a = some n)
    (hb : canonIndex? b = some n) : a = b :=
  (canonIndex_eq_some a n ha).1.symm.trans (canonIndex_eq_some b n hb).1

/-- Defining a fresh key that sorts after every present key appends the
new property at the end. -/
theorem defineProp_append (es : List (String × JSVal)) (k : String) (v : JSVal)
    (hb : ∀ p ∈ es, keyBefore p.1 k = true) (hm : k ∉ objKeys es) :
    defineProp es k v = es ++ [(k, v)] := by
  induction es with
  | nil => simp [defineProp]
  | cons kv rest ih =>
    obtain ⟨k1, v1⟩ := kv
    simp only [objKeys, List.map_cons, List.mem_cons, not_or] at hm
    obtain ⟨hk', hrest⟩ := hm
    have hk : ¬ k = k1 := hk'
    have hb1 : keyBefore k1 k = true := hb (k1, v1) (List.mem_cons_self _ _)
    have hbrest : ∀ p ∈ rest, keyBefore p.1 k = true := fun p hp =>
      hb p (List.mem_cons_of_mem _ hp)
    rcases hck : canonIndex? k with _ | n
    · have hd : defineProp ((k1, v1) :: rest) k v = (k1, v1) :: defineProp rest k v := by
        rcases hck' : canonIndex? k1 with _ | n1 <;> simp [defineProp, hk, hck, hck']
      rw [hd, ih hbrest hrest]
      simp
    · rcases hck' : canonIndex? k1 with _ | n1
      · exact absurd hb1 (by simp [keyBefore_none_some k1 k n hck' hck])
      · have hlt : n1 < n := (keyBefore_some_some k1 k n1 n hck' hck).mp hb1
        have hnlt : ¬ n < n1 := by omega
        have hd : defineProp ((k1, v1) :: rest) k v = (k1, v1) :: defineProp rest k v := by
          simp [defineProp, hk, hck, hck', hnlt]
        rw [hd, ih hbrest hrest]
        simp

/-- Property definition preserves the ordinary-object invariant:
enumeration order and duplicate-freeness of the keys. -/
theorem GoodObj_defineProp (es : List (String × JSVal)) (k : String) (v : JSVal)
    (h : GoodObj es) : GoodObj (defineProp es k v) := by
  induction es with
  | nil =>
    refine ⟨?_, ?_⟩ <;> simp [defineProp, objKeys]
  | cons kv rest ih =>
    obtain ⟨k1, v1⟩ := kv
    obtain ⟨hord, hnd⟩ := h
    simp only [objKeys, List.map_cons, List.pairwise_cons, List.nodup_cons] at hord hnd
    obtain ⟨hk1r, hordr⟩ := hord
    obtain ⟨hk1nr, hndr⟩ := hnd
    have hgrest : GoodObj rest := ⟨hordr, hndr⟩
    by_cases hk : k = k1
    · subst hk
      have hd : defineProp ((k, v1) :: rest) k v = (k, v) :: rest := by
        simp [defineProp]
      rw [hd]
      exact ⟨List.pairwise_cons.mpr ⟨hk1r, hordr⟩, List.nodup_cons.mpr ⟨hk1nr, hndr⟩⟩
    · rcases hck : canonIndex? k with _ | n
      · -- the new key is not an array index: it goes behind the head
        have hd : defineProp ((k1, v1) :: rest) k v = (k1, v1) :: defineProp rest k v := by
          rcases hck' : canonIndex? k1 with _ | n1 <;> simp [defineProp, hk, hck, hck']
        rw [hd]
        obtain ⟨hordd, hndd⟩ := ih hgrest
        refine ⟨List.pairwise_cons.mpr ⟨?_, hordd⟩, List.nodup_cons.mpr ⟨?_, hndd⟩⟩
        · intro b hb
          rcases (mem_objKeys_defineProp rest k b v).mp hb with hb' | hb'
          · exact hk1r b hb'
          · subst hb'
            exact keyBefore_nonindex k1 b hck
        · intro hmem
          rcases (mem_objKeys_defineProp rest k k1 v).mp hmem with hb' | hb'
          · exact hk1nr hb'
          · exact hk hb'.symm
      · rcases hck' : canonIndex? k1 with _ | n1
        · -- index key inserted in front of the non-index head
          have hd : defineProp ((k1, v1) :: rest) k v = (k, v) :: (k1, v1) :: rest := by
            simp [defineProp, hk, hck, hck']
          rw [hd]
          have hrestnone : ∀ b ∈ objKeys rest, canonIndex? b = none := by
            intro b hb
            rcases hcb : canonIndex? b with _ | m
            · rfl
            · exact absurd (hk1r b hb) (by simp [keyBefore_none_some k1 b m hck' hcb])
          refine ⟨List.pairwise_cons.mpr ⟨?_, List.pairwise_cons.mpr ⟨hk1r, hordr⟩⟩,
            List.nodup_cons.mpr ⟨?_, List.nodup_cons.mpr ⟨hk1nr, hndr⟩⟩⟩
          · intro b hb
            rcases List.mem_cons.mp hb with hb' | hb'
            · subst hb'
              exact keyBefore_some_none k b n hck hck'
            · exact keyBefore_nonindex k b (hrestnone b hb')
          · intro hmem
            rcases List.mem_cons.mp hmem with hb' | hb'
            · exact hk hb'
            · rw [hrestnone k hb'] at hck
              exact Option.noConfusion hck
        · by_cases hlt : n < n1
          · -- smaller index inserted in front of the head index
            have hd : defineProp ((k1, v1) :: rest) k v = (k, v) :: (k1, v1) :: rest := by
              simp [defineProp, hk, hck, hck', hlt]
            rw [hd]
            refine ⟨List.pairwise_cons.mpr ⟨?_, List.pairwise_cons.mpr ⟨hk1r, hordr⟩⟩,
              List.nodup_cons.mpr ⟨?_, List.nodup_cons.mpr ⟨hk1nr, hndr⟩⟩⟩
            · intro b hb
              rcases List.mem_cons.mp hb with hb' | hb'
              · subst hb'
                exact (keyBefore_some_some k b n n1 hck hck').mpr hlt
              · rcases hcb : canonIndex? b with _ | m
                · exact keyBefore_nonindex k b hcb
                · have hm : n1 < m := (keyBefore_some_some k1 b n1 m hck' hcb).mp (hk1r b hb')
                  exact (keyBefore_some_some k b n m hck hcb).mpr (by omega)
            · intro hmem
              rcases List.mem_cons.mp hmem with hb' | hb'
              · exact hk hb'
              · have := (keyBefore_some_some k1 k n1 n hck' hck).mp (hk1r k hb')
                omega
          · -- larger index: recurse past the head
            have hne : ¬ n = n1 := fun he => hk (canonIndex_inj k k1 n hck (he ▸ hck'))
            have hgt : n1 < n := by omega
            have hd : defineProp ((k1, v1) :: rest) k v = (k1, v1) :: defineProp rest k v := by
              simp [defineProp, hk, hck, hck', hlt]
            rw [hd]
            obtain ⟨hordd, hndd⟩ := ih hgrest
            refine ⟨List.pairwise_cons.mpr ⟨?_, hordd⟩, List.nodup_cons.mpr ⟨?_, hndd⟩⟩
            · intro b hb
              rcases (mem_objKeys_defineProp rest k b v).mp hb with hb' | hb'
              · exact hk1r b hb'
              · subst hb'
                exact (keyBefore_some_some k1 b n1 n hck' hck).mpr hgt
            · intro hmem
              rcases (mem_objKeys_defineProp rest k k1 v).mp hmem with hb' | hb'
              · exact hk1nr hb'
              · exact hk hb'.symm

/-- Lookup after folding property definitions over an accumulator: the
last written value for the key wins, else the accumulator answers. -/
theorem lookup_foldl_define (l acc : List (String × JSVal)) (k : String) :
    lookup (l.foldl (fun a kv => defineProp a kv.1 kv.2) acc) k =
      match lastVal l k with
      | some v => some v
      | none => lookup acc k := by
  induction l generalizing acc with
  | nil => simp [lastVal]
  | cons kv rest ih =>
    simp only [List.foldl_cons, lastVal]
    rw [ih]
    cases hlv : lastVal rest k with
    | some v => simp
    | none =>
      by_cases hk : kv.1 = k
      · rw [← hk]
        simp [lookup_defineProp_self]
      · simp [hk, lookup_defineProp_ne acc kv.1 k kv.2 (Ne.symm hk)]

/-- Reads on a freshly built object return the value of the last entry
with the requested key: last write wins. -/
theorem lookup_fromEntries (l : List (String × JSVal)) (k : String) :
    lookup (fromEntries l) k = lastVal l k := by
  unfold fromEntries
  rw [lookup_foldl_define]
  cases hlv : lastVal l k <;> simp [lookup]

/-- Key membership after folding property definitions. -/
theorem mem_objKeys_foldl (l acc : List (String × JSVal)) (a : String) :
    a ∈ objKeys (l.foldl (fun ac kv => defineProp ac kv.1 kv.2) acc) ↔
      a ∈ objKeys acc ∨ a ∈ objKeys l := by
  induction l generalizing acc with
  | nil => simp [objKeys]
  | cons kv rest ih =>
    simp only [List.foldl_cons]
    rw [ih, mem_objKeys_defineProp]
    simp only [objKeys, List.map_cons, List.mem_cons]
    tauto

/-- The key set of `Object.fromEntries` is the key set of the entries. -/
theorem mem_objKeys_fromEntries (l : List (String × JSVal)) (a : String) :
    a ∈ objKeys (fromEntries l) ↔ a ∈ objKeys l := by
  unfold fromEntries
  rw [mem_objKeys_foldl]
  simp [objKeys]

/-- Folding property definitions preserves the object invariant. -/
theorem GoodObj_foldl (l acc : List (String × JSVal)) (h : GoodObj acc) :
    GoodObj (l.foldl (fun ac kv => defineProp ac kv.1 kv.2) acc) := by
  induction l generalizing acc with
  | nil => exact h
  | cons kv rest ih =>
    simp only [List.foldl_cons]
    exact ih _ (GoodObj_defineProp acc kv.1 kv.2 h)

/-- Objects built by `Object.fromEntries` satisfy the invariant. -/
theorem GoodObj_fromEntries (l : List (String × JSVal)) : GoodObj (fromEntries l) :=
  GoodObj_foldl l [] ⟨by simp [objKeys], by simp [objKeys]⟩

/-- Folding definitions of already ordered, duplicate-free entries onto
a compatible accumulator just appends them. -/
theorem foldl_define_fix (l acc : List (String × JSVal))
    (h : (objKeys (acc ++ l)).Pairwise (fun a b => keyBefore a b = true))
    (hnd : (objKeys (acc ++ l)).Nodup) :
    l.foldl (fun ac kv => defineProp ac kv.1 kv.2) acc = acc ++ l := by
  induction l generalizing acc with
  | nil => simp
  | cons kv rest ih =>
    simp only [List.foldl_cons]
    have hsplit := h
    rw [objKeys, List.map_append] at hsplit
    rw [List.pairwise_append] at hsplit
    have hndsplit := hnd
    rw [objKeys, List.map_append, List.nodup_append] at hndsplit
    have hb : ∀ p ∈ acc, keyBefore p.1 kv.1 = true := by
      intro p hp
      exact hsplit.2.2 p.1 (List.mem_map_of_mem Prod.fst hp)
        kv.1 (by simp [List.mem_cons])
    have hm : kv.1 ∉ objKeys acc := by
      intro hmem
      exact hndsplit.2.2 hmem (by simp)
    have hd : defineProp acc kv.1 kv.2 = acc ++ [kv] := by
      rw [defineProp_append acc kv.1 kv.2 hb hm]
    rw [hd]
    have hre : (acc ++ [kv]) ++ rest = acc ++ kv :: rest := by simp
    have h' := h
    rw [← hre] at h' hnd
    rw [ih (acc ++ [kv]) h' hnd, hre]

/-- A property list that already satisfies the object invariant is a
fixed point of `Object.fromEntries`. -/
theorem fromEntries_fix (es : List (String × JSVal)) (h : GoodObj es) :
    fromEntries es = es := by
  unfold fromEntries
  have := foldl_define_fix es [] (by simpa [objKeys] using h.1) (by simpa [objKeys] using h.2)
  simpa using this

/-- `Object.fromEntries` is idempotent on property lists. -/
theorem fromEntries_idem (l : List (String × JSVal)) :
    fromEntries (fromEntries l) = fromEntries l :=
  fromEntries_fix (fromEntries l) (GoodObj_fromEntries l)

/-- Entries of a fold of property definitions come from the accumulator
or from the defined entries. -/
theorem mem_foldl_define (l acc : List (String × JSVal)) (p : String × JSVal)
    (h : p ∈ l.foldl (fun ac kv => defineProp ac kv.1 kv.2) acc) : p ∈ acc ∨ p ∈ l := by
  induction l generalizing acc with
  | nil => exact Or.inl h
  | cons kv rest ih =>
    simp only [List.foldl_cons] at h
    rcases ih _ h with h' | h'
    · rcases mem_defineProp acc kv.1 kv.2 p h' with h'' | h''
      · exact Or.inl h''
      · exact Or.inr (by simp [h''])
    · exact Or.inr (List.mem_cons_of_mem _ h')

/-- Every entry of the built object is one of the supplied entries. -/
theorem mem_fromEntries (l : List (String × JSVal)) (p : String × JSVal)
    (h : p ∈ fromEntries l) : p ∈ l := by
  rcases mem_foldl_define l [] p h with h' | h'
  · exact absurd h' (List.not_mem_nil p)
  · exact h'

/-- With duplicate-free keys, folding definitions permutes the keys of
the accumulator followed by the keys of the entries. -/
theorem objKeys_foldl_perm (l acc : List (String × JSVal))
    (h : (objKeys acc ++ objKeys l).Nodup) :
    List.Perm (objKeys (l.foldl (fun ac kv => defineProp ac kv.1 kv.2) acc))
      (objKeys acc ++ objKeys l) := by
  induction l generalizing acc with
  | nil => simp [objKeys]
  | cons kv rest ih =>
    simp only [List.foldl_cons]
    have hm : kv.1 ∉ objKeys acc := by
      intro hmem
      have := (List.nodup_append.mp h).2.2
      exact this hmem (by simp [objKeys])
    have hperm := objKeys_defineProp_perm acc kv.1 kv.2 hm
    have hperm1 : List.Perm (objKeys (defineProp acc kv.1 kv.2) ++ objKeys rest)
        ((kv.1 :: objKeys acc) ++ objKeys rest) := hperm.append_right _
    have hperm2 : List.Perm ((kv.1 :: objKeys acc) ++ objKeys rest)
        (objKeys acc ++ kv.1 :: objKeys rest) := List.perm_middle.symm
    have hnodup' : (objKeys (defineProp acc kv.1 kv.2) ++ objKeys rest).Nodup := by
      refine (hperm1.trans hperm2).symm.nodup ?_
      simpa [objKeys] using h
    have := ih _ hnodup'
    refine this.trans (hperm1.trans ?_)
    simpa [objKeys] using hperm2

/-- With duplicate-free entry keys, the keys of the built object are a
permutation of the entry keys. -/
theorem objKeys_fromEntries_perm (l : List (String × JSVal)) (h : (objKeys l).Nodup) :
    List.Perm (objKeys (fromEntries l)) (objKeys l) := by
  unfold fromEntries
  have := objKeys_foldl_perm l [] (by simpa [objKeys] using h)
  simpa [objKeys] using this

/-- Round trip between `List` and array element lists. -/
theorem JSList.toList_ofList (l : List JSVal) : (JSList.ofList l).toList = l := by
  induction l with
  | nil => rfl
  | cons x xs ih => simp [JSList.ofList, JSList.toList, ih]

/-- Property-key coercion of a string value is the string itself. -/
theorem toPropKey_vstr (s : String) : toPropKey (.vstr s) = s := rfl

/-- The type-utils implementation on an array of string keys builds the
identity entries of those keys (including the empty array, for which the
early-exit guard and the general fold agree). -/
theorem EnumLikeA_strArr (ks : List String) :
    EnumLikeA (jarr (ks.map JSVal.vstr)) =
      fromEntries (ks.map (fun k => (k, JSVal.vstr k))) := by
  cases ks with
  | nil => rfl
  | cons k rest =>
    have harr : arrElems (jarr ((k :: rest).map JSVal.vstr)) = (k :: rest).map JSVal.vstr := by
      simp [jarr, arrElems, JSList.toList_ofList]
    have hguard : (!jsTruthy (jarr ((k :: rest).map JSVal.vstr)) ||
        (isArr (jarr ((k :: rest).map JSVal.vstr)) &&
          arrLength (jarr ((k :: rest).map JSVal.vstr)) == 0)) = false := by
      simp [jarr, jsTruthy, isArr, arrLength, arrElems, JSList.toList_ofList]
    unfold EnumLikeA
    rw [hguard, harr]
    simp only [Bool.false_eq_true, if_false, jarr, isArr, if_true]
    rw [List.map_map]
    rfl

/-- The type-utils implementation on an object builds the identity
entries of its keys. -/
theorem EnumLikeA_vobj (es : List (String × JSVal)) :
    EnumLikeA (.vobj es) = fromEntries ((objKeys es).map (fun k => (k, JSVal.vstr k))) := rfl

/-- The last-write-wins value of identity entries: the key itself (as a
string value), when present. -/
theorem lastVal_identity (ks : List String) (k : String) :
    lastVal (ks.map (fun x => (x, JSVal.vstr x))) k =
      if k ∈ ks then some (JSVal.vstr k) else none := by
  induction ks with
  | nil => simp [lastVal]
  | cons x rest ih =>
    simp only [List.map_cons, lastVal, ih]
    by_cases hm : k ∈ rest
    · simp [hm, List.mem_cons, Or.inr hm]
    · simp only [if_neg hm]
      by_cases hx : x = k
      · subst hx
        simp [List.mem_cons]
      · have hkx : ¬ k = x := fun h => hx h.symm
        have hnm : ¬ k ∈ x :: rest := by
          simp [List.mem_cons, hm, hkx]
        simp [hx, hnm]

/-- Mapping each entry to the identity entry of its key is the identity
on property lists whose values already equal their keys. -/
theorem map_identity_entries (R : List (String × JSVal))
    (hv : ∀ p ∈ R, p.2 = JSVal.vstr p.1) :
    (objKeys R).map (fun k => (k, JSVal.vstr k)) = R := by
  unfold objKeys
  rw [List.map_map]
  induction R with
  | nil => rfl
  | cons p rest ih =>
    have h1 : p.2 = JSVal.vstr p.1 := hv p (List.mem_cons_self _ _)
    have h2 : ((fun k => (k, JSVal.vstr k)) ∘ Prod.fst) p = p := by
      simp only [Function.comp_apply]
      rw [← h1]
    simp only [List.map_cons, h2]
    exact congrArg (p :: ·) (ih (fun q hq => hv q (List.mem_cons_of_mem _ hq)))

/-- Applying the type-utils implementation to an identity object it has
itself built returns that object unchanged. -/
theorem EnumLikeA_idem_core (ks : List String) :
    EnumLikeA (.vobj (fromEntries (ks.map (fun k => (k, JSVal.vstr k))))) =
      fromEntries (ks.map (fun k => (k, JSVal.vstr k))) := by
  have hv : ∀ p ∈ fromEntries (ks.map (fun k => (k, JSVal.vstr k))),
      p.2 = JSVal.vstr p.1 := by
    intro p hp
    have hm := mem_fromEntries _ p hp
    simp only [List.mem_map] at hm
    obtain ⟨k, _, hk⟩ := hm
    rw [← hk]
  rw [EnumLikeA_vobj, map_identity_entries _ hv,
    fromEntries_fix _ (GoodObj_fromEntries _)]

/-- Keys all of which are non-indices are pairwise in enumeration
order. -/
theorem pairwise_keyBefore_of_nonindex (ks : List String)
    (hni : ∀ k ∈ ks, canonIndex? k = none) :
    ks.Pairwise (fun a b => keyBefore a b = true) := by
  induction ks with
  | nil => simp
  | cons k rest ih =>
    rw [List.pairwise_cons]
    exact ⟨fun b hb => keyBefore_nonindex k b (hni b (List.mem_cons_of_mem _ hb)),
      ih (fun b hb => hni b (List.mem_cons_of_mem _ hb))⟩

/-- The keys of the identity entries of `ks` are `ks` itself. -/
theorem objKeys_identity_entries (ks : List String) :
    objKeys (ks.map (fun k => (k, JSVal.vstr k))) = ks := by
  unfold objKeys
  rw [List.map_map]
  have hcomp : ∀ x : String, (Prod.fst ∘ fun k => (k, JSVal.vstr k)) x = x := fun x => rfl
  calc List.map (Prod.fst ∘ fun k => (k, JSVal.vstr k)) ks
      = List.map id ks := List.map_congr_left (fun x _ => hcomp x)
    _ = ks := List.map_id ks

/-- C1: for every non-empty ordered sequence of distinct keys `ks`,
`EnumLike` (the type-utils implementation, the spec term being
`buildIdentityMapping`) returns a mapping with exactly `ks.length`
entries, and the value stored at each key `k ∈ ks` is `k` itself. -/
theorem C1_identity_mapping_distinct_keys (ks : List String) (hne : ks ≠ [])
    (hnd : ks.Nodup) :
    (EnumLikeA (jarr (ks.map JSVal.vstr))).length = ks.length ∧
      ∀ k ∈ ks, lookup (EnumLikeA (jarr (ks.map JSVal.vstr))) k = some (JSVal.vstr k) := by
  rw [EnumLikeA_strArr]
  constructor
  · have hkeys := objKeys_identity_entries ks
    have hperm := objKeys_fromEntries_perm (ks.map (fun k => (k, JSVal.vstr k)))
      (by rw [hkeys]; exact hnd)
    have hlen := hperm.length_eq
    rw [hkeys] at hlen
    simpa [objKeys] using hlen
  · intro k hk
    rw [lookup_fromEntries, lastVal_identity]
    simp [hk]

/-- Witness for C1 at the concrete key sequence `["a", "b"]`. -/
theorem C1_identity_mapping_distinct_keys_witness :
    (EnumLikeA (jarr (["a", "b"].map JSVal.vstr))).length = 2 ∧
      lookup (EnumLikeA (jarr (["a", "b"].map JSVal.vstr))) "a" = some (JSVal.vstr "a") := by
  have h := C1_identity_mapping_distinct_keys ["a", "b"] (by decide) (by decide)
  exact ⟨h.1, h.2 "a" (by decide)⟩

/-- C2: on an object input, `EnumLike` returns a mapping whose key set
equals the key set of the input and whose every value is its own key,
independent of the values stored in the input (objects with the same
keys give identical results). -/
theorem C2_object_identity_mapping (es es' : List (String × JSVal))
    (hkeys : objKeys es = objKeys es') :
    EnumLikeA (.vobj es) = EnumLikeA (.vobj es') ∧
      (∀ a, a ∈ objKeys (EnumLikeA (.vobj es)) ↔ a ∈ objKeys es) ∧
      ∀ k ∈ objKeys es, lookup (EnumLikeA (.vobj es)) k = some (JSVal.vstr k) := by
  refine ⟨by rw [EnumLikeA_vobj, EnumLikeA_vobj, hkeys], ?_, ?_⟩
  · intro a
    rw [EnumLikeA_vobj, mem_objKeys_fromEntries, objKeys_identity_entries]
  · intro k hk
    rw [EnumLikeA_vobj, lookup_fromEntries, lastVal_identity]
    simp [hk]

/-- Witness for C2 at two concrete one-key objects that differ only in
the stored value. -/
theorem C2_object_identity_mapping_witness :
    EnumLikeA (.vobj [("a", JSVal.vnum 5)]) = EnumLikeA (.vobj [("a", JSVal.vnull)]) ∧
      lookup (EnumLikeA (.vobj [("a", JSVal.vnum 5)])) "a" = some (JSVal.vstr "a") := by
  have h := C2_object_identity_mapping [("a", JSVal.vnum 5)] [("a", JSVal.vnull)] rfl
  exact ⟨h.1, h.2.2 "a" (by decide)⟩

/-- C5: duplicate keys in the input sequence fold with last-write-wins
semantics (reads return the last written value), the result has exactly
one entry per distinct key, and concretely
`EnumLike(["a","a","b"]) = EnumLike(["a","b"]) = {a: "a", b: "b"}`. -/
theorem C5_duplicate_keys_last_write_wins :
    (∀ (es : List (String × JSVal)) (k : String),
        lookup (fromEntries es) k = lastVal es k) ∧
      (∀ (ks : List String) (k : String),
        lookup (EnumLikeA (jarr (ks.map JSVal.vstr))) k =
          if k ∈ ks then some (JSVal.vstr k) else none) ∧
      (∀ ks : List String,
        (EnumLikeA (jarr (ks.map JSVal.vstr))).length = ks.dedup.length) ∧
      EnumLikeA (jarr [JSVal.vstr "a", JSVal.vstr "a", JSVal.vstr "b"]) =
        EnumLikeA (jarr [JSVal.vstr "a", JSVal.vstr "b"]) ∧
      EnumLikeA (jarr [JSVal.vstr "a", JSVal.vstr "b"]) =
        [("a", JSVal.vstr "a"), ("b", JSVal.vstr "b")] := by
  refine ⟨lookup_fromEntries, ?_, ?_, rfl, rfl⟩
  · intro ks k
    rw [EnumLikeA_strArr, lookup_fromEntries, lastVal_identity]
  · intro ks
    have hgood := GoodObj_fromEntries (ks.map (fun k => (k, JSVal.vstr k)))
    have hmem : ∀ a, a ∈ objKeys (fromEntries (ks.map (fun k => (k, JSVal.vstr k)))) ↔
        a ∈ ks.dedup := by
      intro a
      rw [mem_objKeys_fromEntries, objKeys_identity_entries, List.mem_dedup]
    have hperm := (List.perm_ext_iff_of_nodup hgood.2 (List.nodup_dedup ks)).mpr hmem
    have hlen := hperm.length_eq
    rw [EnumLikeA_strArr]
    simpa [objKeys] using hlen

/-- C6: both implementations return an empty mapping, with no error, on
an empty array and on an empty object. -/
theorem C6_empty_inputs :
    EnumLikeA (jarr []) = [] ∧ EnumLikeA (.vobj []) = [] ∧
      EnumLikeB (jarr []) = .ok [] ∧ EnumLikeB (.vobj []) = .ok [] :=
  ⟨rfl, rfl, rfl, rfl⟩

/-- C10: at runtime only the first argument of a call is used; any
surplus arguments (as invited by the variadic overload) do not change
the result of either implementation. -/
theorem C10_surplus_arguments_ignored (a : JSVal) (rest : List JSVal) :
    EnumLikeACall (a :: rest) = EnumLikeA a ∧ EnumLikeBCall (a :: rest) = EnumLikeB a :=
  ⟨rfl, rfl⟩

/-- C3 counterexample: the claim says `EnumLike` raises no error on
`null`, but the `lib/enum-like.ts` implementation passes `null` to
`Object.keys` and throws a `TypeError`. -/
theorem C3_counterexample : EnumLikeB JSVal.vnull = Except.error "TypeError" := rfl

/-- C3 amended: the type-utils implementation returns an empty mapping,
with no error, on `null`, `42`, and every other primitive; the
`lib/enum-like.ts` implementation returns an empty mapping on `42` (and
every number and boolean) but throws a `TypeError` on `null` and
`undefined` and returns a non-empty index mapping on non-empty
strings. -/
theorem C3_fallback_amended :
    EnumLikeA JSVal.vnull = [] ∧ EnumLikeA (JSVal.vnum 42) = [] ∧
      EnumLikeA JSVal.vundef = [] ∧
      (∀ n, EnumLikeA (JSVal.vnum n) = []) ∧
      (∀ b, EnumLikeA (JSVal.vbool b) = []) ∧
      (∀ s, EnumLikeA (JSVal.vstr s) = []) ∧
      EnumLikeB (JSVal.vnum 42) = .ok [] ∧
      (∀ n, EnumLikeB (JSVal.vnum n) = .ok []) ∧
      (∀ b, EnumLikeB (JSVal.vbool b) = .ok []) ∧
      EnumLikeB JSVal.vnull = .error "TypeError" ∧
      EnumLikeB JSVal.vundef = .error "TypeError" ∧
      EnumLikeB (JSVal.vstr "Red") =
        .ok [("0", JSVal.vstr "0"), ("1", JSVal.vstr "1"), ("2", JSVal.vstr "2")] := by
  refine ⟨rfl, rfl, rfl, ?_, ?_, ?_, rfl, fun n => rfl, fun b => rfl, rfl, rfl, rfl⟩
  · intro n
    simp [EnumLikeA, jsTruthy, isArr, arrLength, arrElems, typeofIsObject]
  · intro b
    cases b <;> rfl
  · intro s
    simp [EnumLikeA, jsTruthy, isArr, arrLength, arrElems, typeofIsObject]

/-- C4 counterexample: on the input `["b", "0"]` the output enumerates
the array-index key `"0"` first, so the key order of the result is not
the iteration order of the input. -/
theorem C4_counterexample :
    objKeys (EnumLikeA (jarr [JSVal.vstr "b", JSVal.vstr "0"])) ≠ ["b", "0"] := by decide

/-- C4 amended: for sequences of distinct keys none of which is a
canonical array-index string, the key order of the output equals the
iteration order of the input (array-index keys are instead enumerated
first, in ascending numeric order). -/
theorem C4_insertion_order_amended (ks : List String) (hnd : ks.Nodup)
    (hni : ∀ k ∈ ks, canonIndex? k = none) :
    objKeys (EnumLikeA (jarr (ks.map JSVal.vstr))) = ks := by
  have hgood : GoodObj (ks.map (fun k => (k, JSVal.vstr k))) := by
    refine ⟨?_, ?_⟩
    · rw [objKeys_identity_entries]
      exact pairwise_keyBefore_of_nonindex ks hni
    · rw [objKeys_identity_entries]
      exact hnd
  rw [EnumLikeA_strArr, fromEntries_fix _ hgood, objKeys_identity_entries]

/-- Witness for the amended C4 at the concrete keys `["b", "a"]`. -/
theorem C4_insertion_order_amended_witness :
    objKeys (EnumLikeA (jarr (["b", "a"].map JSVal.vstr))) = ["b", "a"] :=
  C4_insertion_order_amended ["b", "a"] (by decide) (by decide)

/-- C7: running `EnumLike` against the heap does not change any
allocated cell (in particular the input is read back unchanged) and
returns a fresh address, distinct from the input, holding the result
object. -/
theorem C7_no_mutation_fresh_result (s : Store) (a : Nat) (v : JSVal)
    (hbound : s.Bounded) (hin : s.lookupAddr a = some v) :
    ∃ s' r, enumLikeAlloc s a = some (s', r) ∧
      s'.lookupAddr a = some v ∧
      (∀ b, b ≠ r → s'.lookupAddr b = s.lookupAddr b) ∧
      s.lookupAddr r = none ∧ r ≠ a ∧
      s'.lookupAddr r = some (JSVal.vobj (EnumLikeA v)) := by
  have hq : ∃ q ∈ s.mem, q.1 = a := by
    unfold Store.lookupAddr at hin
    cases hf : s.mem.find? (fun p => p.1 == a) with
    | none =>
      rw [hf] at hin
      simp at hin
    | some q =>
      have hq1 := List.find?_some hf
      have hq2 := List.mem_of_find?_eq_some hf
      exact ⟨q, hq2, by simpa using hq1⟩
  obtain ⟨q, hqm, hqa⟩ := hq
  have halt : a < s.nextAddr := hqa ▸ hbound q hqm
  have hane : a ≠ s.nextAddr := Nat.ne_of_lt halt
  refine ⟨⟨s.nextAddr + 1, (s.nextAddr, JSVal.vobj (EnumLikeA v)) :: s.mem⟩, s.nextAddr,
    ?_, ?_, ?_, ?_, ?_, ?_⟩
  case _ =>
    unfold enumLikeAlloc
    rw [hin]
  case _ =>
    unfold Store.lookupAddr at hin ⊢
    rw [List.find?_cons_of_neg _ (by simp [Ne.symm hane])]
    exact hin
  case _ =>
    intro b hb
    unfold Store.lookupAddr
    rw [List.find?_cons_of_neg _ (by simp [Ne.symm hb])]
  case _ =>
    unfold Store.lookupAddr
    rw [List.find?_eq_none.mpr]
    · rfl
    · intro x hx
      simp [Nat.ne_of_lt (hbound x hx)]
  case _ => exact Ne.symm hane
  case _ =>
    unfold Store.lookupAddr
    rw [List.find?_cons_of_pos _ (by simp)]
    rfl

/-- Witness for C7 at a concrete one-cell store. -/
theorem C7_no_mutation_fresh_result_witness :
    ∃ s' r, enumLikeAlloc ⟨1, [(0, JSVal.vobj [])]⟩ 0 = some (s', r) ∧
      Store.lookupAddr s' 0 = some (JSVal.vobj []) ∧
      (∀ b, b ≠ r → Store.lookupAddr s' b = Store.lookupAddr ⟨1, [(0, JSVal.vobj [])]⟩ b) ∧
      Store.lookupAddr ⟨1, [(0, JSVal.vobj [])]⟩ r = none ∧ r ≠ 0 ∧
      Store.lookupAddr s' r = some (JSVal.vobj (EnumLikeA (JSVal.vobj []))) := by
  apply C7_no_mutation_fresh_result ⟨1, [(0, JSVal.vobj [])]⟩ 0 (JSVal.vobj [])
  · intro p hp
    rw [List.mem_singleton] at hp
    subst hp
    exact Nat.zero_lt_one
  · rfl

/-- C8 counterexample: on input `null` the two implementations differ —
the type-utils one returns an empty mapping, the `lib/enum-like.ts` one
throws a `TypeError`. -/
theorem C8_counterexample :
    ¬ Except.ok (EnumLikeA JSVal.vnull) = EnumLikeB JSVal.vnull := by
  intro h
  exact Except.noConfusion h

/-- C8 amended: the two implementations agree on every array, every
object, every number, every boolean, and the empty string; they differ
on `null` and `undefined` (empty mapping versus `TypeError`) and on
non-empty strings (empty mapping versus an index identity mapping). -/
theorem C8_agreement_amended :
    (∀ l : JSList, Except.ok (EnumLikeA (.varr l)) = EnumLikeB (.varr l)) ∧
      (∀ es, Except.ok (EnumLikeA (.vobj es)) = EnumLikeB (.vobj es)) ∧
      (∀ n, Except.ok (EnumLikeA (.vnum n)) = EnumLikeB (.vnum n)) ∧
      (∀ b, Except.ok (EnumLikeA (.vbool b)) = EnumLikeB (.vbool b)) ∧
      Except.ok (EnumLikeA (.vstr "")) = EnumLikeB (.vstr "") ∧
      EnumLikeA JSVal.vnull = [] ∧ EnumLikeB JSVal.vnull = .error "TypeError" ∧
      EnumLikeA JSVal.vundef = [] ∧ EnumLikeB JSVal.vundef = .error "TypeError" ∧
      EnumLikeA (.vstr "ab") = [] ∧
      EnumLikeB (.vstr "ab") = .ok [("0", JSVal.vstr "0"), ("1", JSVal.vstr "1")] := by
  refine ⟨?_, fun es => rfl, ?_, ?_, rfl, rfl, rfl, rfl, rfl, rfl, rfl⟩
  · intro l
    cases l <;> rfl
  · intro n
    have hA : EnumLikeA (.vnum n) = [] := by
      simp [EnumLikeA, jsTruthy, isArr, arrLength, arrElems, typeofIsObject]
    rw [hA]
    rfl
  · intro b
    cases b <;> rfl

/-- C9 counterexample: `EnumLike` is not idempotent on the array input
`[1]` — the first application keys the number `1` under the property
key `"1"` with the number as value, the second replaces the value by
the string `"1"`. -/
theorem C9_counterexample :
    EnumLikeA (.vobj (EnumLikeA (jarr [JSVal.vnum 1]))) ≠ EnumLikeA (jarr [JSVal.vnum 1]) := by
  intro h
  have h' : (some (JSVal.vstr "1") : Option JSVal) = some (JSVal.vnum 1) :=
    congrArg (fun l => lookup l "1") h
  have h'' := Option.some.inj h'
  exact JSVal.noConfusion h''

/-- C9 amended: `EnumLike` is idempotent on every object input and on
every sequence of string keys (for sequences with non-string elements
the second application replaces each value by the string form of its
key). -/
theorem C9_idempotence_amended :
    (∀ es, EnumLikeA (.vobj (EnumLikeA (.vobj es))) = EnumLikeA (.vobj es)) ∧
      ∀ ks : List String,
        EnumLikeA (.vobj (EnumLikeA (jarr (ks.map JSVal.vstr)))) =
          EnumLikeA (jarr (ks.map JSVal.vstr)) := by
  constructor
  · intro es
    rw [EnumLikeA_vobj es]
    exact EnumLikeA_idem_core (objKeys es)
  · intro ks
    rw [EnumLikeA_strArr]
    exact EnumLikeA_idem_core ks
